import Mathlib

/-!
Verification of the YAMLWeave weaving engine against its specification.

The repository ships the evidence corpus of the tool: paired backup/stubbed
C sample trees.  The engine itself (marker scanner, snippet catalog, weaver,
backup manager, run coordinator) is not part of the shipped sources, so it is
modelled here from the specification, with the concrete marker syntax
(comment lines of the form TC<id> STEP<id> <segment>) and the injected-line
sentinel (the trailing comment tag on every tool-inserted line) taken from
the sample corpus.
-/

namespace YAMLWeave

/-- Whitespace test used when stripping indentation and splitting marker
tokens: a space or a tab. -/
def isWS (c : Char) : Bool := c = ' ' || c = '\t'

/-- Accumulator-based word splitter: splits a character list into its
maximal whitespace-free tokens.  The accumulator holds the current token
reversed. -/
def wsplitAux : List Char → List Char → List (List Char)
  | [], acc => if acc.isEmpty then [] else [acc.reverse]
  | c :: cs, acc =>
    if isWS c then
      if acc.isEmpty then wsplitAux cs [] else acc.reverse :: wsplitAux cs []
    else
      wsplitAux cs (c :: acc)

/-- Split a character list into whitespace-delimited tokens. -/
def wsplit (cs : List Char) : List (List Char) := wsplitAux cs []

/-- A character is alphanumeric: a letter or a digit. -/
def isAlnum (c : Char) : Bool := c.isAlpha || c.isDigit

/-- Modelled from the spec: recognizes a test-case token, the literal
characters TC followed by a nonempty alphanumeric identifier. -/
def isTCtok : List Char → Bool
  | 'T' :: 'C' :: rest => !rest.isEmpty && rest.all isAlnum
  | _ => false

/-- Modelled from the spec: recognizes a step token, the literal characters
STEP followed by a nonempty alphanumeric identifier. -/
def isSTEPtok : List Char → Bool
  | 'S' :: 'T' :: 'E' :: 'P' :: rest => !rest.isEmpty && rest.all isAlnum
  | _ => false

/-- Strips the comment-line double slash from the front of a line body,
returning the remaining content, or none when the line is not a
comment line. -/
def afterSlashes (cs : List Char) : Option (List Char) :=
  match cs with
  | c1 :: c2 :: rest => if c1 = '/' && c2 = '/' then some rest else none
  | _ => none

/-- Modelled from the spec: the immutable MarkerKey triple of test case id,
step id and segment name, uniquely identifying a snippet binding. -/
structure MarkerKey where
  tc : String
  step : String
  segment : String
deriving DecidableEq

/-- Modelled from the spec: the marker scanner matching rule on the raw
characters of a line.  After stripping leading whitespace and the
comment-line double slash, the content must consist of exactly three
whitespace-delimited tokens: TC followed by a nonempty alphanumeric id,
STEP followed by a nonempty alphanumeric id, and a segment name (a single
token, underscores allowed).  The engine for this matching rule is not part
of the shipped sources; the rule follows the specification and the marker
lines observed in the sample corpus. -/
def parseMarkerChars (cs : List Char) : Option MarkerKey :=
  match afterSlashes (cs.dropWhile isWS) with
  | none => none
  | some content =>
    match wsplit content with
    | [t1, t2, t3] =>
      if isTCtok t1 && isSTEPtok t2 then
        some ⟨String.mk t1, String.mk t2, String.mk t3⟩
      else none
    | _ => none

/-- A line is treated as a marker exactly when its characters match the
marker pattern. -/
def parseMarker (l : String) : Option MarkerKey := parseMarkerChars l.data

/-- The injected-line sentinel observed on every tool-inserted line of the
stubbed sample trees: a trailing comment tag. -/
def sentinel : String := "  // 通过桩插入"

/-- Tag one snippet line with the trailing sentinel, producing the line as
it appears in the woven output. -/
def tagLine (s : String) : String := s ++ sentinel

/-- A line is recognized as tool-inserted when it ends with the sentinel. -/
def isTagged (l : String) : Bool := sentinel.data.isSuffixOf l.data

/-- Modelled from the spec: a snippet is an ordered sequence of text
lines. -/
abbrev Snippet := List String

/-- Modelled from the spec: the snippet catalog, a sequence of MarkerKey
to snippet bindings built from the declarative input. -/
abbrev Catalog := List (MarkerKey × Snippet)

/-- Modelled from the spec: resolve a MarkerKey against the catalog,
returning the first binding for that exact key. -/
def resolve : Catalog → MarkerKey → Option Snippet
  | [], _ => none
  | (k2, s) :: rest, k => if k2 = k then some s else resolve rest k

/-- Modelled from the spec: the load-time ambiguity test, true when two
entries bind the same MarkerKey to different snippet text. -/
def hasConflict : List (MarkerKey × Snippet) → Bool
  | [] => false
  | (k, s) :: rest =>
    rest.any (fun e => decide (e.1 = k ∧ e.2 ≠ s)) || hasConflict rest

/-- Modelled from the spec: catalog loading fails fast on an ambiguous
binding, otherwise yields the catalog. -/
def loadCatalog (entries : List (MarkerKey × Snippet)) : Option Catalog :=
  if hasConflict entries then none else some entries

/-- Modelled from the spec: the per-marker outcome of a weave. -/
inductive WeaveResult where
  | Inserted
  | SkippedNoSnippet
  | SkippedAlreadyWoven
  | ReplacedExisting
  | Failed (reason : String)
deriving DecidableEq

/-- Modelled from the spec: the weaver core, processing the lines of one
file top to bottom with explicit fuel (any fuel at least the number of
lines gives the same answer).  Per marker line: an unresolved key is
skipped leaving the text untouched; with a resolved snippet, the run of
sentinel-tagged lines immediately following the marker is the existing
injected block: absent, the tagged snippet is inserted; identical to the
tagged snippet, the marker is skipped; different, the block is replaced. -/
def weaveAux (cat : Catalog) : Nat → List String → List String × List WeaveResult
  | _, [] => ([], [])
  | 0, l :: rest => (l :: rest, [])
  | fuel + 1, l :: rest =>
    match parseMarker l with
    | none =>
      (l :: (weaveAux cat fuel rest).1, (weaveAux cat fuel rest).2)
    | some k =>
      match resolve cat k with
      | none =>
        (l :: (weaveAux cat fuel rest).1,
         .SkippedNoSnippet :: (weaveAux cat fuel rest).2)
      | some sn =>
        if rest.takeWhile isTagged = [] then
          (l :: (sn.map tagLine ++ (weaveAux cat fuel rest).1),
           .Inserted :: (weaveAux cat fuel rest).2)
        else if rest.takeWhile isTagged = sn.map tagLine then
          (l :: (rest.takeWhile isTagged ++ (weaveAux cat fuel (rest.dropWhile isTagged)).1),
           .SkippedAlreadyWoven :: (weaveAux cat fuel (rest.dropWhile isTagged)).2)
        else
          (l :: (sn.map tagLine ++ (weaveAux cat fuel (rest.dropWhile isTagged)).1),
           .ReplacedExisting :: (weaveAux cat fuel (rest.dropWhile isTagged)).2)

/-- Weave one file: transformed lines plus the per-marker results in file
order. -/
def weaveLines (cat : Catalog) (ls : List String) : List String × List WeaveResult :=
  weaveAux cat ls.length ls

/-- Modelled from the spec: the marker scanner, yielding the keys of the
marker occurrences of a file in file order. -/
def scanMarkers (ls : List String) : List MarkerKey := ls.filterMap parseMarker

/-- Coverage checker with fuel: every marker line whose key resolves is
immediately followed by exactly the tagged snippet lines of its catalog
entry, the run of tagged lines ending there. -/
def coverageAux (cat : Catalog) : Nat → List String → Bool
  | _, [] => true
  | 0, _ :: _ => true
  | fuel + 1, l :: rest =>
    match parseMarker l with
    | none => coverageAux cat fuel rest
    | some k =>
      match resolve cat k with
      | none => coverageAux cat fuel rest
      | some sn =>
        decide (rest.takeWhile isTagged = sn.map tagLine) &&
          coverageAux cat fuel (rest.dropWhile isTagged)

/-- Coverage of a whole file. -/
def coverageOK (cat : Catalog) (ls : List String) : Bool :=
  coverageAux cat ls.length ls

/-- A source file of the input tree: a path and its lines. -/
structure SourceFile where
  path : String
  content : List String
deriving DecidableEq

/-- Modelled from the spec: a BackupRecord maps an original file path to
its snapshot, taken before the file is first mutated. -/
structure BackupRecord where
  path : String
  snapshot : List String
deriving DecidableEq

/-- Snapshot a file into a BackupRecord holding its pre-run bytes. -/
def snapshot (f : SourceFile) : BackupRecord := ⟨f.path, f.content⟩

/-- Modelled from the spec: restore overwrites the original path with the
snapshot held by the BackupRecord. -/
def restoreBackup (b : BackupRecord) : SourceFile := ⟨b.path, b.snapshot⟩

/-- Modelled from the spec: the per-file step of the run coordinator:
snapshot, weave, write-if-changed.  An unchanged file is not rewritten and
needs no backup; a mutated file is written only after its BackupRecord
exists. -/
def runFile (cat : Catalog) (f : SourceFile) :
    SourceFile × Option BackupRecord × List WeaveResult :=
  if (weaveLines cat f.content).1 = f.content then
    (f, none, (weaveLines cat f.content).2)
  else
    (⟨f.path, (weaveLines cat f.content).1⟩, some (snapshot f),
     (weaveLines cat f.content).2)

/-- Outcome of a whole run: a configuration error before any file is
touched, or the per-file outcomes. -/
inductive RunOutcome where
  | configError
  | done (results : List (SourceFile × Option BackupRecord × List WeaveResult))
deriving DecidableEq

/-- Modelled from the spec: a run loads the catalog first and fails fast on
an ambiguous binding before any file is read or mutated; otherwise it
processes every file. -/
def runAll (entries : List (MarkerKey × Snippet)) (fs : List SourceFile) : RunOutcome :=
  match loadCatalog entries with
  | none => .configError
  | some cat => .done (fs.map (runFile cat))

/-- A catalog is free of empty snippets (an empty snippet would make an
injected block invisible). -/
def NoEmptySnippets (cat : Catalog) : Prop := ∀ e ∈ cat, e.2 ≠ ([] : Snippet)

/-! ### List helper lemmas -/

theorem takeWhile_append_of_all {α : Type} {p : α → Bool} {B : List α} (t : List α)
    (h : ∀ x ∈ B, p x = true) : (B ++ t).takeWhile p = B ++ t.takeWhile p := by
  induction B with
  | nil => rfl
  | cons b B ih =>
    have hb : p b = true := h b (List.mem_cons_self b B)
    simp only [List.cons_append, List.takeWhile_cons, hb, if_true]
    rw [ih (fun x hx => h x (List.mem_cons_of_mem b hx))]

theorem dropWhile_append_of_all {α : Type} {p : α → Bool} {B : List α} (t : List α)
    (h : ∀ x ∈ B, p x = true) : (B ++ t).dropWhile p = t.dropWhile p := by
  induction B with
  | nil => rfl
  | cons b B ih =>
    have hb : p b = true := h b (List.mem_cons_self b B)
    simp only [List.cons_append, List.dropWhile_cons, hb, if_true]
    exact ih (fun x hx => h x (List.mem_cons_of_mem b hx))

theorem dropWhile_append_cons_of_neg {α : Type} {p : α → Bool} {a : α}
    (B t : List α) (h : p a = false) :
    (B ++ a :: t).dropWhile p = B.dropWhile p ++ a :: t := by
  induction B with
  | nil => simp [List.dropWhile_cons, h]
  | cons b B ih =>
    by_cases hb : p b = true
    · simp only [List.cons_append, List.dropWhile_cons, hb, if_true]
      exact ih
    · have hb2 : p b = false := by
        cases hpb : p b
        · rfl
        · exact absurd hpb hb
      simp [List.dropWhile_cons, hb2]

theorem head?_dropWhile_neg {α : Type} (p : α → Bool) (t : List α) (c : α)
    (h : (t.dropWhile p).head? = some c) : p c = false := by
  induction t with
  | nil => simp [List.dropWhile] at h
  | cons x t ih =>
    by_cases hx : p x = true
    · simp only [List.dropWhile_cons, hx, if_true] at h
      exact ih h
    · have hx2 : p x = false := by
        cases hpx : p x
        · rfl
        · exact absurd hpx hx
      simp only [List.dropWhile_cons, hx2] at h
      simp only [Bool.false_eq_true, if_false, List.head?_cons, Option.some.injEq] at h
      rw [← h]
      exact hx2

theorem takeWhile_nil_of_head {α : Type} {p : α → Bool} {t : List α}
    (h : ∀ c, t.head? = some c → p c = false) : t.takeWhile p = [] := by
  cases t with
  | nil => rfl
  | cons x t =>
    have hx : p x = false := h x rfl
    simp [List.takeWhile_cons, hx]

theorem length_dropWhile_le {α : Type} (p : α → Bool) (t : List α) :
    (t.dropWhile p).length ≤ t.length := by
  induction t with
  | nil => exact Nat.le_refl 0
  | cons x t ih =>
    by_cases hx : p x = true
    · simp only [List.dropWhile_cons, hx, if_true]
      exact Nat.le_succ_of_le ih
    · have hx2 : p x = false := by
        cases hpx : p x
        · rfl
        · exact absurd hpx hx
      simp [List.dropWhile_cons, hx2]

theorem filter_not_of_all {α : Type} {p : α → Bool} {B : List α}
    (h : ∀ x ∈ B, p x = true) : B.filter (fun x => !p x) = [] := by
  induction B with
  | nil => rfl
  | cons b B ih =>
    have hb : p b = true := h b (List.mem_cons_self b B)
    simp only [List.filter_cons, hb, Bool.not_true, if_false]
    exact ih (fun x hx => h x (List.mem_cons_of_mem b hx))

theorem filterMap_eq_nil_of_none {α β : Type} {f : α → Option β} {B : List α}
    (h : ∀ x ∈ B, f x = none) : B.filterMap f = [] := by
  induction B with
  | nil => rfl
  | cons b B ih =>
    rw [List.filterMap_cons, h b (List.mem_cons_self b B)]
    exact ih (fun x hx => h x (List.mem_cons_of_mem b hx))

/-! ### Sentinel lemmas -/

theorem isTagged_tagLine (s : String) : isTagged (tagLine s) = true := by
  unfold isTagged tagLine
  rw [String.data_append]
  exact List.isSuffixOf_iff_suffix.mpr (List.suffix_append _ _)

theorem tagLine_ne_empty (s : String) : tagLine s ≠ "" := by
  intro h
  have hd : (tagLine s).data = ("" : String).data := by rw [h]
  rw [tagLine, String.data_append] at hd
  have hnil : s.data ++ sentinel.data = [] := hd
  have : sentinel.data = [] := (List.append_eq_nil.mp hnil).2
  exact absurd this (by decide)

theorem all_tagged_map_tagLine (sn : Snippet) :
    ∀ x ∈ sn.map tagLine, isTagged x = true := by
  intro x hx
  rcases List.mem_map.mp hx with ⟨s, _, rfl⟩
  exact isTagged_tagLine s

theorem all_tagged_takeWhile (rest : List String) :
    ∀ x ∈ rest.takeWhile isTagged, isTagged x = true := by
  intro x hx
  exact List.mem_takeWhile_imp hx

/-! ### Branch unfolding lemmas for the weaver and the coverage checker -/

theorem weaveAux_cons_nomarker {cat : Catalog} {l : String} {rest : List String}
    {fuel : Nat} (hp : parseMarker l = none) :
    weaveAux cat (fuel + 1) (l :: rest) =
      (l :: (weaveAux cat fuel rest).1, (weaveAux cat fuel rest).2) := by
  simp only [weaveAux, hp]

theorem weaveAux_cons_nosnippet {cat : Catalog} {l : String} {rest : List String}
    {fuel : Nat} {k : MarkerKey} (hp : parseMarker l = some k)
    (hr : resolve cat k = none) :
    weaveAux cat (fuel + 1) (l :: rest) =
      (l :: (weaveAux cat fuel rest).1,
       .SkippedNoSnippet :: (weaveAux cat fuel rest).2) := by
  simp only [weaveAux, hp, hr]

theorem weaveAux_cons_insert {cat : Catalog} {l : String} {rest : List String}
    {fuel : Nat} {k : MarkerKey} {sn : Snippet} (hp : parseMarker l = some k)
    (hr : resolve cat k = some sn) (he : rest.takeWhile isTagged = []) :
    weaveAux cat (fuel + 1) (l :: rest) =
      (l :: (sn.map tagLine ++ (weaveAux cat fuel rest).1),
       .Inserted :: (weaveAux cat fuel rest).2) := by
  simp only [weaveAux, hp, hr, he]
  simp

theorem weaveAux_cons_skip {cat : Catalog} {l : String} {rest : List String}
    {fuel : Nat} {k : MarkerKey} {sn : Snippet} (hp : parseMarker l = some k)
    (hr : resolve cat k = some sn) (he : rest.takeWhile isTagged = sn.map tagLine)
    (hne : sn.map tagLine ≠ []) :
    weaveAux cat (fuel + 1) (l :: rest) =
      (l :: (sn.map tagLine ++ (weaveAux cat fuel (rest.dropWhile isTagged)).1),
       .SkippedAlreadyWoven :: (weaveAux cat fuel (rest.dropWhile isTagged)).2) := by
  simp only [weaveAux, hp, hr, he]
  rw [if_neg hne]
  simp

theorem weaveAux_cons_replace {cat : Catalog} {l : String} {rest : List String}
    {fuel : Nat} {k : MarkerKey} {sn : Snippet} (hp : parseMarker l = some k)
    (hr : resolve cat k = some sn) (he : rest.takeWhile isTagged ≠ [])
    (hs : rest.takeWhile isTagged ≠ sn.map tagLine) :
    weaveAux cat (fuel + 1) (l :: rest) =
      (l :: (sn.map tagLine ++ (weaveAux cat fuel (rest.dropWhile isTagged)).1),
       .ReplacedExisting :: (weaveAux cat fuel (rest.dropWhile isTagged)).2) := by
  simp only [weaveAux, hp, hr]
  rw [if_neg he, if_neg hs]

theorem coverageAux_cons_nomarker {cat : Catalog} {l : String} {rest : List String}
    {fuel : Nat} (hp : parseMarker l = none) :
    coverageAux cat (fuel + 1) (l :: rest) = coverageAux cat fuel rest := by
  simp only [coverageAux, hp]

theorem coverageAux_cons_nosnippet {cat : Catalog} {l : String} {rest : List String}
    {fuel : Nat} {k : MarkerKey} (hp : parseMarker l = some k)
    (hr : resolve cat k = none) :
    coverageAux cat (fuel + 1) (l :: rest) = coverageAux cat fuel rest := by
  simp only [coverageAux, hp, hr]

theorem coverageAux_cons_found {cat : Catalog} {l : String} {rest : List String}
    {fuel : Nat} {k : MarkerKey} {sn : Snippet} (hp : parseMarker l = some k)
    (hr : resolve cat k = some sn) :
    coverageAux cat (fuel + 1) (l :: rest) =
      (decide (rest.takeWhile isTagged = sn.map tagLine) &&
        coverageAux cat fuel (rest.dropWhile isTagged)) := by
  simp only [coverageAux, hp, hr]

/-! ### Tagged lines are never markers -/

theorem wsplitAux_append_ws {w : Char} (hw : isWS w = true) (ys : List Char) :
    ∀ xs acc, wsplitAux (xs ++ w :: ys) acc = wsplitAux xs acc ++ wsplitAux (w :: ys) [] := by
  intro xs
  induction xs with
  | nil =>
    intro acc
    cases hacc : acc.isEmpty with
    | true => simp [wsplitAux, hw, hacc]
    | false => simp [wsplitAux, hw, hacc]
  | cons c xs ih =>
    intro acc
    cases hc : isWS c with
    | true =>
      cases hacc : acc.isEmpty with
      | true => simp [wsplitAux, hc, hacc, ih]
      | false => simp [wsplitAux, hc, hacc, ih]
    | false => simp [wsplitAux, hc, ih]

theorem sentinel_data_eq :
    sentinel.data = ' ' :: ' ' :: '/' :: '/' :: ' ' :: ['通', '过', '桩', '插', '入'] := rfl

theorem wsplit_append_sentinel (d : List Char) :
    wsplit (d ++ sentinel.data) =
      wsplit d ++ [['/', '/'], ['通', '过', '桩', '插', '入']] := by
  rw [sentinel_data_eq]
  unfold wsplit
  rw [wsplitAux_append_ws (by decide) _ d]
  rfl

theorem parseMarkerChars_elim (cs content : List Char)
    (hA : afterSlashes (cs.dropWhile isWS) = some content) :
    parseMarkerChars cs =
      (match wsplit content with
        | [t1, t2, t3] =>
          if isTCtok t1 && isSTEPtok t2 then
            some ⟨String.mk t1, String.mk t2, String.mk t3⟩
          else none
        | _ => none) := by
  unfold parseMarkerChars
  rw [hA]

theorem parseMarkerChars_elim_none {cs : List Char}
    (hA : afterSlashes (cs.dropWhile isWS) = none) :
    parseMarkerChars cs = none := by
  unfold parseMarkerChars
  rw [hA]

theorem parseMarkerChars_append_sentinel (xs : List Char) :
    parseMarkerChars (xs ++ sentinel.data) = none := by
  have hx : xs.takeWhile isWS ++ xs.dropWhile isWS = xs :=
    List.takeWhile_append_dropWhile isWS xs
  have htw : ∀ x ∈ xs.takeWhile isWS, isWS x = true :=
    fun x hx2 => List.mem_takeWhile_imp hx2
  cases hd : xs.dropWhile isWS with
  | nil =>
    have hall : ∀ x ∈ xs, isWS x = true := by
      intro x hmem
      rw [← hx, hd, List.append_nil] at hmem
      exact htw x hmem
    have h1 : (xs ++ sentinel.data).dropWhile isWS = sentinel.data.dropWhile isWS :=
      dropWhile_append_of_all _ hall
    unfold parseMarkerChars
    rw [h1]
    rfl
  | cons c d2 =>
    have hcw : isWS c = false :=
      head?_dropWhile_neg isWS xs c (by rw [hd]; rfl)
    have h1 : (xs ++ sentinel.data).dropWhile isWS = (c :: d2) ++ sentinel.data := by
      have h2 : xs ++ sentinel.data =
          xs.takeWhile isWS ++ ((c :: d2) ++ sentinel.data) := by
        rw [← List.append_assoc, ← hd, hx]
      rw [h2, dropWhile_append_of_all _ htw]
      simp [List.dropWhile_cons, hcw]
    cases d2 with
    | nil =>
      refine parseMarkerChars_elim_none ?_
      rw [h1, show (c :: ([] : List Char)) ++ sentinel.data = c :: sentinel.data by simp,
        sentinel_data_eq]
      simp [afterSlashes]
    | cons e d3 =>
      have h3 : ((c :: e :: d3) ++ sentinel.data) = c :: e :: (d3 ++ sentinel.data) := by
        simp
      by_cases hc : c = '/'
      · by_cases he : e = '/'
        · subst hc he
          rw [parseMarkerChars_elim _ (d3 ++ sentinel.data)
              (by rw [h1, h3]; simp [afterSlashes])]
          rw [wsplit_append_sentinel d3]
          split
          · rename_i t1 t2 t3 heq
            have hlen : (wsplit d3).length + 2 = 3 := by
              have := congrArg List.length heq
              simpa using this
            have hone : (wsplit d3).length = 1 := by omega
            rcases List.length_eq_one.mp hone with ⟨a, ha⟩
            rw [ha] at heq
            simp only [List.cons_append, List.nil_append, List.cons.injEq] at heq
            rcases heq with ⟨_, heq2, _⟩
            rw [← heq2]
            simp [isSTEPtok]
          · rfl
        · refine parseMarkerChars_elim_none ?_
          rw [h1, h3]
          simp [afterSlashes, he]
      · refine parseMarkerChars_elim_none ?_
        rw [h1, h3]
        simp [afterSlashes, hc]

theorem markerNotTagged {l : String} {k : MarkerKey}
    (h : parseMarker l = some k) : isTagged l = false := by
  cases ht : isTagged l with
  | false => rfl
  | true =>
    exfalso
    have hsuf : sentinel.data <:+ l.data := List.isSuffixOf_iff_suffix.mp ht
    rcases hsuf with ⟨pre, hpre⟩
    have : parseMarker l = none := by
      unfold parseMarker
      rw [← hpre]
      exact parseMarkerChars_append_sentinel pre
    rw [this] at h
    exact Option.noConfusion h

theorem notMarker_of_tagged {l : String} (h : isTagged l = true) :
    parseMarker l = none := by
  cases hp : parseMarker l with
  | none => rfl
  | some k => rw [markerNotTagged hp] at h; exact Bool.noConfusion h

/-! ### Fuel irrelevance and head preservation of the weaver -/

theorem weaveAux_fuel_irrel (cat : Catalog) :
    ∀ f1 f2 ls, ls.length ≤ f1 → ls.length ≤ f2 →
      weaveAux cat f1 ls = weaveAux cat f2 ls := by
  intro f1
  induction f1 with
  | zero =>
    intro f2 ls h1 _
    cases ls with
    | nil => cases f2 <;> rfl
    | cons l rest => simp at h1
  | succ f1 ih =>
    intro f2 ls h1 h2
    cases ls with
    | nil => cases f2 <;> rfl
    | cons l rest =>
      cases f2 with
      | zero => simp at h2
      | succ f2 =>
        have hb1 : rest.length ≤ f1 := Nat.succ_le_succ_iff.mp (by simpa using h1)
        have hb2 : rest.length ≤ f2 := Nat.succ_le_succ_iff.mp (by simpa using h2)
        have hd1 : (rest.dropWhile isTagged).length ≤ f1 :=
          Nat.le_trans (length_dropWhile_le _ _) hb1
        have hd2 : (rest.dropWhile isTagged).length ≤ f2 :=
          Nat.le_trans (length_dropWhile_le _ _) hb2
        cases hp : parseMarker l with
        | none =>
          rw [weaveAux_cons_nomarker hp, weaveAux_cons_nomarker hp,
            ih f2 rest hb1 hb2]
        | some k =>
          cases hr : resolve cat k with
          | none =>
            rw [weaveAux_cons_nosnippet hp hr, weaveAux_cons_nosnippet hp hr,
              ih f2 rest hb1 hb2]
          | some sn =>
            by_cases he : rest.takeWhile isTagged = []
            · rw [weaveAux_cons_insert hp hr he, weaveAux_cons_insert hp hr he,
                ih f2 rest hb1 hb2]
            · by_cases hs : rest.takeWhile isTagged = sn.map tagLine
              · have hne : sn.map tagLine ≠ [] := by rw [← hs]; exact he
                rw [weaveAux_cons_skip hp hr hs hne, weaveAux_cons_skip hp hr hs hne,
                  ih f2 (rest.dropWhile isTagged) hd1 hd2]
              · rw [weaveAux_cons_replace hp hr he hs,
                  weaveAux_cons_replace hp hr he hs,
                  ih f2 (rest.dropWhile isTagged) hd1 hd2]

theorem weaveAux_head? (cat : Catalog) (fuel : Nat) (ls : List String) :
    ((weaveAux cat fuel ls).1).head? = ls.head? := by
  cases ls with
  | nil => cases fuel <;> rfl
  | cons l rest =>
    cases fuel with
    | zero => rfl
    | succ fuel =>
      cases hp : parseMarker l with
      | none => rw [weaveAux_cons_nomarker hp]; rfl
      | some k =>
        cases hr : resolve cat k with
        | none => rw [weaveAux_cons_nosnippet hp hr]; rfl
        | some sn =>
          by_cases he : rest.takeWhile isTagged = []
          · rw [weaveAux_cons_insert hp hr he]; rfl
          · by_cases hs : rest.takeWhile isTagged = sn.map tagLine
            · have hne : sn.map tagLine ≠ [] := by rw [← hs]; exact he
              rw [weaveAux_cons_skip hp hr hs hne]; rfl
            · rw [weaveAux_cons_replace hp hr he hs]; rfl

/-! ### Auxiliary facts about heads after takeWhile and dropWhile -/

theorem head_neg_of_takeWhile_nil {α : Type} {p : α → Bool} {t : List α}
    (h : t.takeWhile p = []) : ∀ c, t.head? = some c → p c = false := by
  intro c hc
  cases t with
  | nil => exact absurd hc (by simp)
  | cons x t =>
    have hcx : c = x := by
      simp only [List.head?_cons, Option.some.injEq] at hc
      exact hc.symm
    subst hcx
    cases hx : p c with
    | false => rfl
    | true =>
      rw [List.takeWhile_cons, hx] at h
      simp at h

theorem dropWhile_eq_self_of_head {α : Type} {p : α → Bool} {t : List α}
    (h : ∀ c, t.head? = some c → p c = false) : t.dropWhile p = t := by
  cases t with
  | nil => rfl
  | cons x t =>
    have hx : p x = false := h x rfl
    simp [List.dropWhile_cons, hx]

theorem resolve_mem {cat : Catalog} {k : MarkerKey} {sn : Snippet}
    (h : resolve cat k = some sn) : (k, sn) ∈ cat := by
  induction cat with
  | nil => exact absurd h (by simp [resolve])
  | cons e rest ih =>
    rcases e with ⟨k2, s2⟩
    by_cases hk : k2 = k
    · subst hk
      rw [resolve, if_pos rfl] at h
      rcases Option.some.injEq _ _ ▸ h with h2
      have : s2 = sn := by injection h
      subst this
      exact List.mem_cons_self _ _
    · rw [resolve, if_neg hk] at h
      exact List.mem_cons_of_mem _ (ih h)

/-! ### Coverage of the weave output -/

theorem coverage_block_step {cat : Catalog} {cf : Nat} {sn : Snippet}
    {out : List String} (hout : ∀ c, out.head? = some c → isTagged c = false)
    (hcov : coverageAux cat cf out = true) {l : String} {k : MarkerKey}
    (hp : parseMarker l = some k) (hr : resolve cat k = some sn) :
    coverageAux cat (cf + 1) (l :: (sn.map tagLine ++ out)) = true := by
  rw [coverageAux_cons_found hp hr]
  have htw : (sn.map tagLine ++ out).takeWhile isTagged = sn.map tagLine := by
    rw [takeWhile_append_of_all _ (all_tagged_map_tagLine sn),
      takeWhile_nil_of_head hout, List.append_nil]
  have hdw : (sn.map tagLine ++ out).dropWhile isTagged = out := by
    rw [dropWhile_append_of_all _ (all_tagged_map_tagLine sn),
      dropWhile_eq_self_of_head hout]
  rw [htw, hdw, hcov]
  simp

theorem coverage_weaveAux (cat : Catalog) :
    ∀ fw ls cf, ls.length ≤ fw → ((weaveAux cat fw ls).1).length ≤ cf →
      coverageAux cat cf (weaveAux cat fw ls).1 = true := by
  intro fw
  induction fw with
  | zero =>
    intro ls cf h1 _
    cases ls with
    | nil => cases cf <;> rfl
    | cons l rest => simp at h1
  | succ fw ih =>
    intro ls cf h1 h2
    cases ls with
    | nil => cases cf <;> rfl
    | cons l rest =>
      have hb : rest.length ≤ fw := by simpa using h1
      cases hp : parseMarker l with
      | none =>
        rw [weaveAux_cons_nomarker hp] at h2 ⊢
        cases cf with
        | zero => simp at h2
        | succ cf =>
          rw [coverageAux_cons_nomarker hp]
          exact ih rest cf hb (by simpa using h2)
      | some k =>
        cases hr : resolve cat k with
        | none =>
          rw [weaveAux_cons_nosnippet hp hr] at h2 ⊢
          cases cf with
          | zero => simp at h2
          | succ cf =>
            rw [coverageAux_cons_nosnippet hp hr]
            exact ih rest cf hb (by simpa using h2)
        | some sn =>
          by_cases he : rest.takeWhile isTagged = []
          · rw [weaveAux_cons_insert hp hr he] at h2 ⊢
            cases cf with
            | zero => simp at h2
            | succ cf =>
              have hout : ∀ c, ((weaveAux cat fw rest).1).head? = some c →
                  isTagged c = false := by
                intro c hc
                rw [weaveAux_head?] at hc
                exact head_neg_of_takeWhile_nil he c hc
              have hlen : ((weaveAux cat fw rest).1).length ≤ cf := by
                simp only [List.length_cons, List.length_append] at h2
                omega
              exact coverage_block_step hout (ih rest cf hb hlen) hp hr
          · have hd : (rest.dropWhile isTagged).length ≤ fw :=
              Nat.le_trans (length_dropWhile_le _ _) hb
            have hout : ∀ c, ((weaveAux cat fw (rest.dropWhile isTagged)).1).head? = some c →
                isTagged c = false := by
              intro c hc
              rw [weaveAux_head?] at hc
              exact head?_dropWhile_neg isTagged rest c hc
            by_cases hs : rest.takeWhile isTagged = sn.map tagLine
            · have hne : sn.map tagLine ≠ [] := by rw [← hs]; exact he
              rw [weaveAux_cons_skip hp hr hs hne] at h2 ⊢
              cases cf with
              | zero => simp at h2
              | succ cf =>
                have hlen : ((weaveAux cat fw (rest.dropWhile isTagged)).1).length ≤ cf := by
                  simp only [List.length_cons, List.length_append] at h2
                  omega
                exact coverage_block_step hout (ih (rest.dropWhile isTagged) cf hd hlen) hp hr
            · rw [weaveAux_cons_replace hp hr he hs] at h2 ⊢
              cases cf with
              | zero => simp at h2
              | succ cf =>
                have hlen : ((weaveAux cat fw (rest.dropWhile isTagged)).1).length ≤ cf := by
                  simp only [List.length_cons, List.length_append] at h2
                  omega
                exact coverage_block_step hout (ih (rest.dropWhile isTagged) cf hd hlen) hp hr

/-! ### The frame property: untagged lines pass through unchanged -/

theorem weaveAux_filter (cat : Catalog) :
    ∀ fw ls, ls.length ≤ fw →
      ((weaveAux cat fw ls).1).filter (fun x => !isTagged x) =
        ls.filter (fun x => !isTagged x) := by
  intro fw
  induction fw with
  | zero =>
    intro ls h1
    cases ls with
    | nil => rfl
    | cons l rest => simp at h1
  | succ fw ih =>
    intro ls h1
    cases ls with
    | nil => rfl
    | cons l rest =>
      have hb : rest.length ≤ fw := by simpa using h1
      have hd : (rest.dropWhile isTagged).length ≤ fw :=
        Nat.le_trans (length_dropWhile_le _ _) hb
      cases hp : parseMarker l with
      | none =>
        rw [weaveAux_cons_nomarker hp]
        simp only [List.filter_cons]
        rw [ih rest hb]
      | some k =>
        cases hr : resolve cat k with
        | none =>
          rw [weaveAux_cons_nosnippet hp hr]
          simp only [List.filter_cons]
          rw [ih rest hb]
        | some sn =>
          by_cases he : rest.takeWhile isTagged = []
          · rw [weaveAux_cons_insert hp hr he]
            simp only [List.filter_cons, List.filter_append]
            rw [filter_not_of_all (all_tagged_map_tagLine sn), ih rest hb]
            simp
          · by_cases hs : rest.takeWhile isTagged = sn.map tagLine
            · have hne : sn.map tagLine ≠ [] := by rw [← hs]; exact he
              rw [weaveAux_cons_skip hp hr hs hne]
              conv_rhs => rw [show rest = rest.takeWhile isTagged ++ rest.dropWhile isTagged
                from (List.takeWhile_append_dropWhile isTagged rest).symm]
              simp only [List.filter_cons, List.filter_append]
              rw [filter_not_of_all (all_tagged_map_tagLine sn),
                filter_not_of_all (all_tagged_takeWhile rest),
                ih (rest.dropWhile isTagged) hd]
            · rw [weaveAux_cons_replace hp hr he hs]
              conv_rhs => rw [show rest = rest.takeWhile isTagged ++ rest.dropWhile isTagged
                from (List.takeWhile_append_dropWhile isTagged rest).symm]
              simp only [List.filter_cons, List.filter_append]
              rw [filter_not_of_all (all_tagged_map_tagLine sn),
                filter_not_of_all (all_tagged_takeWhile rest),
                ih (rest.dropWhile isTagged) hd]

/-! ### A covered file is a fixpoint of the weave -/

theorem weaveAux_fixpoint (cat : Catalog) :
    ∀ fw ls, ls.length ≤ fw → coverageAux cat fw ls = true →
      (weaveAux cat fw ls).1 = ls ∧
      (NoEmptySnippets cat →
        (weaveAux cat fw ls).2 = (scanMarkers ls).map (fun k =>
          match resolve cat k with
          | none => WeaveResult.SkippedNoSnippet
          | some _ => WeaveResult.SkippedAlreadyWoven)) := by
  intro fw
  induction fw with
  | zero =>
    intro ls h1 _
    cases ls with
    | nil => exact ⟨rfl, fun _ => rfl⟩
    | cons l rest => simp at h1
  | succ fw ih =>
    intro ls h1 hcov
    cases ls with
    | nil => exact ⟨rfl, fun _ => rfl⟩
    | cons l rest =>
      have hb : rest.length ≤ fw := by simpa using h1
      cases hp : parseMarker l with
      | none =>
        rw [coverageAux_cons_nomarker hp] at hcov
        rw [weaveAux_cons_nomarker hp]
        rcases ih rest hb hcov with ⟨ht, hres⟩
        refine ⟨by rw [ht], fun hNE => ?_⟩
        rw [hres hNE]
        simp [scanMarkers, List.filterMap_cons, hp]
      | some k =>
        cases hr : resolve cat k with
        | none =>
          rw [coverageAux_cons_nosnippet hp hr] at hcov
          rw [weaveAux_cons_nosnippet hp hr]
          rcases ih rest hb hcov with ⟨ht, hres⟩
          refine ⟨by rw [ht], fun hNE => ?_⟩
          rw [hres hNE]
          simp [scanMarkers, List.filterMap_cons, hp, hr]
        | some sn =>
          rw [coverageAux_cons_found hp hr] at hcov
          have hcov' : rest.takeWhile isTagged = sn.map tagLine ∧
              coverageAux cat fw (rest.dropWhile isTagged) = true := by
            simpa using hcov
          rcases hcov' with ⟨htw, hcov2⟩
          have hd : (rest.dropWhile isTagged).length ≤ fw :=
            Nat.le_trans (length_dropWhile_le _ _) hb
          by_cases hB : sn.map tagLine = []
          · -- empty snippet: the weave inserts nothing and the text is unchanged
            have he : rest.takeWhile isTagged = [] := by rw [htw, hB]
            have hdw : rest.dropWhile isTagged = rest := by
              have := List.takeWhile_append_dropWhile isTagged rest
              rw [he, List.nil_append] at this
              exact this
            rw [hdw] at hcov2
            rw [weaveAux_cons_insert hp hr he]
            rcases ih rest hb hcov2 with ⟨ht, _⟩
            refine ⟨by rw [ht, hB, List.nil_append], fun hNE => ?_⟩
            exfalso
            have hsn : sn = [] := List.map_eq_nil_iff.mp hB
            exact hNE (k, sn) (resolve_mem hr) hsn
          · have hne : rest.takeWhile isTagged ≠ [] := by rw [htw]; exact hB
            rw [weaveAux_cons_skip hp hr htw hB]
            rcases ih (rest.dropWhile isTagged) hd hcov2 with ⟨ht, hres⟩
            constructor
            · rw [ht, ← htw, List.takeWhile_append_dropWhile]
            · intro hNE
              rw [hres hNE]
              have hscan : scanMarkers (l :: rest) = k :: scanMarkers (rest.dropWhile isTagged) := by
                have hnone : ∀ x ∈ rest.takeWhile isTagged, parseMarker x = none :=
                  fun x hx => notMarker_of_tagged (all_tagged_takeWhile rest x hx)
                have : scanMarkers rest = scanMarkers (rest.dropWhile isTagged) := by
                  conv_lhs => rw [show rest = rest.takeWhile isTagged ++ rest.dropWhile isTagged
                    from (List.takeWhile_append_dropWhile isTagged rest).symm]
                  rw [scanMarkers, List.filterMap_append,
                    filterMap_eq_nil_of_none hnone, List.nil_append]
                  rfl
                rw [scanMarkers, List.filterMap_cons, hp, ← scanMarkers, this]
              rw [hscan]
              simp [hr]

/-! ### When no marker resolves, the weave is the identity -/

theorem weaveAux_noResolve (cat : Catalog) :
    ∀ fw ls, ls.length ≤ fw →
      (∀ k ∈ scanMarkers ls, resolve cat k = none) →
      weaveAux cat fw ls = (ls, (scanMarkers ls).map (fun _ => WeaveResult.SkippedNoSnippet)) := by
  intro fw
  induction fw with
  | zero =>
    intro ls h1 _
    cases ls with
    | nil => rfl
    | cons l rest => simp at h1
  | succ fw ih =>
    intro ls h1 hnone
    cases ls with
    | nil => rfl
    | cons l rest =>
      have hb : rest.length ≤ fw := by simpa using h1
      cases hp : parseMarker l with
      | none =>
        have hrest : ∀ k ∈ scanMarkers rest, resolve cat k = none := by
          intro k hk
          exact hnone k (by simp [scanMarkers, List.filterMap_cons, hp] at hk ⊢; exact hk)
        rw [weaveAux_cons_nomarker hp, ih rest hb hrest]
        simp [scanMarkers, List.filterMap_cons, hp]
      | some k =>
        have hscan : scanMarkers (l :: rest) = k :: scanMarkers rest := by
          rw [scanMarkers, List.filterMap_cons, hp]
          rfl
        have hk : resolve cat k = none :=
          hnone k (by rw [hscan]; exact List.mem_cons_self _ _)
        have hrest : ∀ k2 ∈ scanMarkers rest, resolve cat k2 = none := by
          intro k2 hk2
          exact hnone k2 (by rw [hscan]; exact List.mem_cons_of_mem _ hk2)
        rw [weaveAux_cons_nosnippet hp hk, ih rest hb hrest, hscan]
        rfl

/-! ### The injected block after a marker is a function of its key -/

theorem coverage_blockOfKey (cat : Catalog) :
    ∀ cf ls a (l : String) r k sn,
      ls.length ≤ cf → coverageAux cat cf ls = true →
      ls = a ++ l :: r → parseMarker l = some k → resolve cat k = some sn →
      r.takeWhile isTagged = sn.map tagLine := by
  intro cf
  induction cf with
  | zero =>
    intro ls a l r k sn h1 _ hls _ _
    subst hls
    simp at h1
  | succ cf ih =>
    intro ls a l r k sn h1 hcov hls hp hr
    subst hls
    cases a with
    | nil =>
      rw [List.nil_append] at hcov h1
      rw [coverageAux_cons_found hp hr] at hcov
      have hcov' : r.takeWhile isTagged = sn.map tagLine ∧
          coverageAux cat cf (r.dropWhile isTagged) = true := by
        simpa using hcov
      exact hcov'.1
    | cons x a2 =>
      rw [List.cons_append] at hcov h1
      have hb : (a2 ++ l :: r).length ≤ cf := by simpa using h1
      cases hp2 : parseMarker x with
      | none =>
        rw [coverageAux_cons_nomarker hp2] at hcov
        exact ih (a2 ++ l :: r) a2 l r k sn hb hcov rfl hp hr
      | some k2 =>
        cases hr2 : resolve cat k2 with
        | none =>
          rw [coverageAux_cons_nosnippet hp2 hr2] at hcov
          exact ih (a2 ++ l :: r) a2 l r k sn hb hcov rfl hp hr
        | some sn2 =>
          rw [coverageAux_cons_found hp2 hr2] at hcov
          have hcovP : (a2 ++ l :: r).takeWhile isTagged = sn2.map tagLine ∧
              coverageAux cat cf ((a2 ++ l :: r).dropWhile isTagged) = true := by
            simpa using hcov
          have hcov2 := hcovP.2
          have hlt : isTagged l = false := markerNotTagged hp
          rw [dropWhile_append_cons_of_neg a2 r hlt] at hcov2
          have hlen : (a2.dropWhile isTagged ++ l :: r).length ≤ cf := by
            have := length_dropWhile_le isTagged a2
            simp only [List.length_append, List.length_cons] at hb ⊢
            omega
          exact ih (a2.dropWhile isTagged ++ l :: r) (a2.dropWhile isTagged)
            l r k sn hlen hcov2 rfl hp hr

/-! ### Catalog loading: ambiguity detection -/

theorem hasConflict_iff (es : List (MarkerKey × Snippet)) :
    hasConflict es = true ↔
      ∃ k s1 s2, (k, s1) ∈ es ∧ (k, s2) ∈ es ∧ s1 ≠ s2 := by
  induction es with
  | nil => simp [hasConflict]
  | cons e rest ih =>
    rcases e with ⟨k0, s0⟩
    rw [hasConflict, Bool.or_eq_true, List.any_eq_true, ih]
    constructor
    · rintro (⟨x, hx, hpx⟩ | ⟨k, s1, s2, h1, h2, hne⟩)
      · rcases of_decide_eq_true hpx with ⟨hk, hs⟩
        refine ⟨k0, s0, x.2, List.mem_cons_self _ _, ?_, fun h => hs h.symm⟩
        have hxeq : (k0, x.2) = x := by
          rw [← hk]
        exact List.mem_cons_of_mem _ (hxeq ▸ hx)
      · exact ⟨k, s1, s2, List.mem_cons_of_mem _ h1, List.mem_cons_of_mem _ h2, hne⟩
    · rintro ⟨k, s1, s2, h1, h2, hne⟩
      rcases List.mem_cons.mp h1 with he1 | hr1
      · have hk1 : k = k0 := congrArg Prod.fst he1
        have hs1 : s1 = s0 := congrArg Prod.snd he1
        rcases List.mem_cons.mp h2 with he2 | hr2
        · have hs2 : s2 = s0 := congrArg Prod.snd he2
          exact absurd (hs1.trans hs2.symm) hne
        · left
          refine ⟨(k, s2), hr2, decide_eq_true ⟨hk1, ?_⟩⟩
          rw [← hs1]
          exact fun h => hne h.symm
      · rcases List.mem_cons.mp h2 with he2 | hr2
        · have hk2 : k = k0 := congrArg Prod.fst he2
          have hs2 : s2 = s0 := congrArg Prod.snd he2
          left
          refine ⟨(k, s1), hr1, decide_eq_true ⟨hk2, ?_⟩⟩
          rw [← hs2]
          exact hne
        · exact Or.inr ⟨k, s1, s2, hr1, hr2, hne⟩

theorem loadCatalog_none_iff (es : List (MarkerKey × Snippet)) :
    loadCatalog es = none ↔ hasConflict es = true := by
  unfold loadCatalog
  cases h : hasConflict es with
  | true => simp
  | false => simp

/-! ## The claims -/

/-- Claim C1: coverage.  For every marker occurrence whose MarkerKey has an
entry in the catalog, the woven output contains exactly one injected block
for that key, placed immediately after the marker line, whose lines are
exactly the catalog snippet's lines in order, each carrying the sentinel:
the coverage checker accepts every weave output. -/
theorem weave_coverage_exact (cat : Catalog) (ls : List String) :
    coverageOK cat (weaveLines cat ls).1 = true :=
  coverage_weaveAux cat ls.length ls ((weaveAux cat ls.length ls).1).length
    le_rfl le_rfl

/-- Claim C2: non-interference.  For every input file, the subsequence of
lines without the sentinel (the lines outside any injected block) is
byte-identical, in order, between input and woven output: weaving only
adds whole sentinel-tagged lines. -/
theorem weave_frame_preserved (cat : Catalog) (ls : List String) :
    ((weaveLines cat ls).1).filter (fun x => !isTagged x) =
      ls.filter (fun x => !isTagged x) :=
  weaveAux_filter cat ls.length ls le_rfl

/-- Claim C3: idempotence.  Re-weaving a woven file with the same catalog
(free of empty snippets) yields byte-identical text, and on the second pass
every marker with a catalog entry reports SkippedAlreadyWoven while every
marker without one reports SkippedNoSnippet; nothing is mutated. -/
theorem weave_idempotent (cat : Catalog) (ls : List String)
    (hNE : NoEmptySnippets cat) :
    (weaveLines cat (weaveLines cat ls).1).1 = (weaveLines cat ls).1 ∧
    (weaveLines cat (weaveLines cat ls).1).2 =
      (scanMarkers (weaveLines cat ls).1).map (fun k =>
        match resolve cat k with
        | none => WeaveResult.SkippedNoSnippet
        | some _ => WeaveResult.SkippedAlreadyWoven) := by
  have hcov : coverageAux cat ((weaveLines cat ls).1).length (weaveLines cat ls).1 = true :=
    coverage_weaveAux cat ls.length ls _ le_rfl le_rfl
  rcases weaveAux_fixpoint cat ((weaveLines cat ls).1).length (weaveLines cat ls).1
    le_rfl hcov with ⟨h1, h2⟩
  exact ⟨h1, h2 hNE⟩

/-- Witness for C3 at a concrete catalog and file: Scenario B followed by
Scenario C. -/
theorem weave_idempotent_witness :
    NoEmptySnippets [(⟨"TC001", "STEP1", "segment1"⟩, ["  if (x < 0) \x7b return 0; \x7d"])] ∧
    ((weaveLines [(⟨"TC001", "STEP1", "segment1"⟩, ["  if (x < 0) \x7b return 0; \x7d"])]
        (weaveLines [(⟨"TC001", "STEP1", "segment1"⟩, ["  if (x < 0) \x7b return 0; \x7d"])]
          ["// TC001 STEP1 segment1"]).1).1 =
      (weaveLines [(⟨"TC001", "STEP1", "segment1"⟩, ["  if (x < 0) \x7b return 0; \x7d"])]
        ["// TC001 STEP1 segment1"]).1 ∧
    (weaveLines [(⟨"TC001", "STEP1", "segment1"⟩, ["  if (x < 0) \x7b return 0; \x7d"])]
        (weaveLines [(⟨"TC001", "STEP1", "segment1"⟩, ["  if (x < 0) \x7b return 0; \x7d"])]
          ["// TC001 STEP1 segment1"]).1).2 =
      (scanMarkers (weaveLines [(⟨"TC001", "STEP1", "segment1"⟩, ["  if (x < 0) \x7b return 0; \x7d"])]
          ["// TC001 STEP1 segment1"]).1).map (fun k =>
        match resolve [(⟨"TC001", "STEP1", "segment1"⟩, ["  if (x < 0) \x7b return 0; \x7d"])] k with
        | none => WeaveResult.SkippedNoSnippet
        | some _ => WeaveResult.SkippedAlreadyWoven)) :=
  ⟨by unfold NoEmptySnippets; decide,
   weave_idempotent _ _ (by unfold NoEmptySnippets; decide)⟩

/-- Claim C4: no-op safety.  A marker whose key is absent from the catalog
yields SkippedNoSnippet and leaves the line and everything after it
untouched; when no marker of the file resolves, the output equals the
input and the coordinator does not rewrite the file (no backup, no
mutation). -/
theorem weave_noop_missing_key (cat : Catalog) (p l : String)
    (rest ls : List String) (k : MarkerKey) :
    (parseMarker l = some k → resolve cat k = none →
      weaveLines cat (l :: rest) =
        (l :: (weaveLines cat rest).1,
         WeaveResult.SkippedNoSnippet :: (weaveLines cat rest).2)) ∧
    ((∀ k2 ∈ scanMarkers ls, resolve cat k2 = none) →
      weaveLines cat ls = (ls, (scanMarkers ls).map (fun _ => WeaveResult.SkippedNoSnippet)) ∧
      runFile cat ⟨p, ls⟩ =
        (⟨p, ls⟩, none, (scanMarkers ls).map (fun _ => WeaveResult.SkippedNoSnippet))) := by
  constructor
  · intro hp hr
    rw [weaveLines, List.length_cons, weaveAux_cons_nosnippet hp hr]
    rfl
  · intro h
    have hw := weaveAux_noResolve cat ls.length ls le_rfl h
    refine ⟨hw, ?_⟩
    unfold runFile
    rw [show weaveLines cat (SourceFile.mk p ls).content =
        (ls, (scanMarkers ls).map (fun _ => WeaveResult.SkippedNoSnippet)) from hw]
    simp

/-- Witness for C4: Scenario A, the bare marker with an empty catalog. -/
theorem weave_noop_missing_key_witness :
    weaveLines ([] : Catalog) ["// TC001 STEP1 segment1"] =
      (["// TC001 STEP1 segment1"], [WeaveResult.SkippedNoSnippet]) ∧
    runFile ([] : Catalog) ⟨"module1/Demo1.2.c", ["// TC001 STEP1 segment1"]⟩ =
      (⟨"module1/Demo1.2.c", ["// TC001 STEP1 segment1"]⟩, none,
       [WeaveResult.SkippedNoSnippet]) := by
  have h := (weave_noop_missing_key ([] : Catalog) "module1/Demo1.2.c"
      "// TC001 STEP1 segment1" [] ["// TC001 STEP1 segment1"]
      ⟨"TC001", "STEP1", "segment1"⟩).2 (by decide)
  exact ⟨h.1, h.2⟩

/-- Claim C5: replacement.  A marker already followed by an injected block
that differs from the currently resolved snippet has that whole block
removed and the new tagged snippet inserted in its place, reporting
ReplacedExisting, while every line outside the block (every untagged line)
is preserved. -/
theorem weave_replaces_differing_block (cat : Catalog) (l : String)
    (rest : List String) (k : MarkerKey) (sn : Snippet)
    (hp : parseMarker l = some k) (hr : resolve cat k = some sn)
    (he : rest.takeWhile isTagged ≠ [])
    (hs : rest.takeWhile isTagged ≠ sn.map tagLine) :
    weaveLines cat (l :: rest) =
      (l :: (sn.map tagLine ++ (weaveLines cat (rest.dropWhile isTagged)).1),
       WeaveResult.ReplacedExisting :: (weaveLines cat (rest.dropWhile isTagged)).2) ∧
    ((weaveLines cat (l :: rest)).1).filter (fun x => !isTagged x) =
      (l :: rest).filter (fun x => !isTagged x) := by
  constructor
  · rw [weaveLines, List.length_cons, weaveAux_cons_replace hp hr he hs,
      weaveAux_fuel_irrel cat rest.length (rest.dropWhile isTagged).length
        (rest.dropWhile isTagged) (length_dropWhile_le _ _) le_rfl]
    rfl
  · exact weaveAux_filter cat (l :: rest).length (l :: rest) le_rfl

/-- Witness for C5: Scenario D, a stale injected block replaced by the
newly resolved snippet. -/
theorem weave_replaces_differing_block_witness :
    weaveLines [(⟨"TC001", "STEP1", "segment1"⟩, ["  new_line();"])]
        ["// TC001 STEP1 segment1", tagLine "  old_line();", "rest();"] =
      ("// TC001 STEP1 segment1" ::
        ((["  new_line();"] : Snippet).map tagLine ++
          (weaveLines [(⟨"TC001", "STEP1", "segment1"⟩, ["  new_line();"])]
            (([tagLine "  old_line();", "rest();"] : List String).dropWhile isTagged)).1),
       WeaveResult.ReplacedExisting ::
        (weaveLines [(⟨"TC001", "STEP1", "segment1"⟩, ["  new_line();"])]
          (([tagLine "  old_line();", "rest();"] : List String).dropWhile isTagged)).2) ∧
    ((weaveLines [(⟨"TC001", "STEP1", "segment1"⟩, ["  new_line();"])]
        ["// TC001 STEP1 segment1", tagLine "  old_line();", "rest();"]).1).filter
        (fun x => !isTagged x) =
      (["// TC001 STEP1 segment1", tagLine "  old_line();", "rest();"]).filter
        (fun x => !isTagged x) :=
  weave_replaces_differing_block
    [(⟨"TC001", "STEP1", "segment1"⟩, ["  new_line();"])]
    "// TC001 STEP1 segment1" [tagLine "  old_line();", "rest();"]
    ⟨"TC001", "STEP1", "segment1"⟩ ["  new_line();"]
    (by decide) (by decide) (by decide) (by decide)

/-- Claim C6: backup round-trip.  The per-file run never mutates a file
without producing its BackupRecord first, and restoring that record
reproduces the exact pre-run file. -/
theorem backup_roundtrip (cat : Catalog) (f : SourceFile) :
    ((runFile cat f).1.content ≠ f.content →
      (runFile cat f).2.1 = some (snapshot f) ∧
      restoreBackup (snapshot f) = f) ∧
    (∀ rec, (runFile cat f).2.1 = some rec → restoreBackup rec = f) := by
  unfold runFile
  by_cases hchg : (weaveLines cat f.content).1 = f.content
  · rw [if_pos hchg]
    refine ⟨fun h => absurd rfl h, fun rec hrec => ?_⟩
    exact Option.noConfusion hrec
  · rw [if_neg hchg]
    refine ⟨fun _ => ⟨rfl, ?_⟩, fun rec hrec => ?_⟩
    · cases f
      rfl
    · have : snapshot f = rec := by injection hrec
      rw [← this]
      cases f
      rfl

/-- Witness for C6: a run that mutates the file has a BackupRecord whose
restoration is the pre-run file. -/
theorem backup_roundtrip_witness :
    (runFile [(⟨"TC001", "STEP1", "segment1"⟩, ["  stub();"])]
        ⟨"module1/Demo1.1.c", ["// TC001 STEP1 segment1"]⟩).2.1 =
      some (snapshot ⟨"module1/Demo1.1.c", ["// TC001 STEP1 segment1"]⟩) ∧
    restoreBackup (snapshot ⟨"module1/Demo1.1.c", ["// TC001 STEP1 segment1"]⟩) =
      ⟨"module1/Demo1.1.c", ["// TC001 STEP1 segment1"]⟩ :=
  (backup_roundtrip [(⟨"TC001", "STEP1", "segment1"⟩, ["  stub();"])]
    ⟨"module1/Demo1.1.c", ["// TC001 STEP1 segment1"]⟩).1 (by decide)

/-- Claim C7: key determinism.  Any two marker occurrences with the same
MarkerKey, in the outputs of weaving any two files with the same catalog,
are followed by textually identical injected blocks, both equal to the
tagged snippet of the key's catalog entry. -/
theorem key_determines_injected_block (cat : Catalog)
    (ls1 ls2 a1 r1 a2 r2 : List String) (l1 l2 : String)
    (k : MarkerKey) (sn : Snippet)
    (h1 : (weaveLines cat ls1).1 = a1 ++ l1 :: r1)
    (h2 : (weaveLines cat ls2).1 = a2 ++ l2 :: r2)
    (hp1 : parseMarker l1 = some k) (hp2 : parseMarker l2 = some k)
    (hr : resolve cat k = some sn) :
    r1.takeWhile isTagged = sn.map tagLine ∧
    r2.takeWhile isTagged = sn.map tagLine ∧
    r1.takeWhile isTagged = r2.takeWhile isTagged := by
  have hcov1 : coverageAux cat ((weaveLines cat ls1).1).length (weaveLines cat ls1).1 = true :=
    coverage_weaveAux cat ls1.length ls1 _ le_rfl le_rfl
  have hcov2 : coverageAux cat ((weaveLines cat ls2).1).length (weaveLines cat ls2).1 = true :=
    coverage_weaveAux cat ls2.length ls2 _ le_rfl le_rfl
  have b1 := coverage_blockOfKey cat ((weaveLines cat ls1).1).length
    (weaveLines cat ls1).1 a1 l1 r1 k sn le_rfl hcov1 h1 hp1 hr
  have b2 := coverage_blockOfKey cat ((weaveLines cat ls2).1).length
    (weaveLines cat ls2).1 a2 l2 r2 k sn le_rfl hcov2 h2 hp2 hr
  exact ⟨b1, b2, b1.trans b2.symm⟩

/-- Witness for C7: Scenario E, the same key in two files of different
modules receiving identical injected blocks. -/
theorem key_determines_injected_block_witness :
    (([tagLine "  check_min_max();"] : List String).takeWhile isTagged =
      (["  check_min_max();"] : Snippet).map tagLine) ∧
    (([tagLine "  check_min_max();"] : List String).takeWhile isTagged =
      (["  check_min_max();"] : Snippet).map tagLine) ∧
    (([tagLine "  check_min_max();"] : List String).takeWhile isTagged =
      ([tagLine "  check_min_max();"] : List String).takeWhile isTagged) :=
  key_determines_injected_block
    [(⟨"TC202", "STEP1", "test_min_max"⟩, ["  check_min_max();"])]
    ["// TC202 STEP1 test_min_max"]
    ["int before;", "// TC202 STEP1 test_min_max"]
    [] [tagLine "  check_min_max();"]
    ["int before;"] [tagLine "  check_min_max();"]
    "// TC202 STEP1 test_min_max" "// TC202 STEP1 test_min_max"
    ⟨"TC202", "STEP1", "test_min_max"⟩ ["  check_min_max();"]
    (by decide) (by decide) (by decide) (by decide) (by decide)

/-- Claim C8: catalog fail-fast.  Loading fails exactly when two entries
bind the same MarkerKey to different snippet text, and a failed load stops
the run as a configuration error before any file is processed. -/
theorem catalog_fail_fast (entries : List (MarkerKey × Snippet))
    (fs : List SourceFile) :
    (loadCatalog entries = none ↔
      ∃ k s1 s2, (k, s1) ∈ entries ∧ (k, s2) ∈ entries ∧ s1 ≠ s2) ∧
    (loadCatalog entries = none → runAll entries fs = RunOutcome.configError) := by
  constructor
  · rw [loadCatalog_none_iff]
    exact hasConflict_iff entries
  · intro h
    simp only [runAll, h]

/-- Witness for C8: a duplicated key with different snippet text stops a
concrete run before touching its file. -/
theorem catalog_fail_fast_witness :
    runAll
      [(⟨"TC001", "STEP1", "segment1"⟩, ["  a();"]),
       (⟨"TC001", "STEP1", "segment1"⟩, ["  b();"])]
      [⟨"module1/Demo1.1.c", ["// TC001 STEP1 segment1"]⟩] =
      RunOutcome.configError :=
  (catalog_fail_fast
    [(⟨"TC001", "STEP1", "segment1"⟩, ["  a();"]),
     (⟨"TC001", "STEP1", "segment1"⟩, ["  b();"])]
    [⟨"module1/Demo1.1.c", ["// TC001 STEP1 segment1"]⟩]).2 (by decide)

/-- Claim C9: marker recognition.  The matcher accepts exactly the lines
whose content, after stripping indentation and the comment prefix, is
TC-id, STEP-id and a single segment token: the sample marker lines are
recognized with their keys, near-miss lines (missing STEP token, trailing
extra token) are rejected, and any non-marker line passes through the
weave unchanged in place. -/
theorem marker_recognition_rule (cat : Catalog) (l : String) (rest : List String) :
    (parseMarker "    // TC001 STEP1 segment1" =
      some ⟨"TC001", "STEP1", "segment1"⟩) ∧
    (parseMarker "// TC202 STEP1 test_min_max" =
      some ⟨"TC202", "STEP1", "test_min_max"⟩) ∧
    (parseMarker "    // TC001 segment1" = none) ∧
    (parseMarker "    // TC001 STEP1 segment1 extra" = none) ∧
    (parseMarker "    // tc001 STEP1 segment1" = none) ∧
    (parseMarker l = none →
      weaveLines cat (l :: rest) =
        (l :: (weaveLines cat rest).1, (weaveLines cat rest).2)) := by
  refine ⟨by decide, by decide, by decide, by decide, by decide, fun hp => ?_⟩
  rw [weaveLines, List.length_cons, weaveAux_cons_nomarker hp]
  rfl

/-- Witness for C9: a plain code line passes through the weave unchanged. -/
theorem marker_recognition_rule_witness :
    (parseMarker "    // TC001 STEP1 segment1" =
      some ⟨"TC001", "STEP1", "segment1"⟩) ∧
    weaveLines ([] : Catalog) ["int x = 0;"] =
      ("int x = 0;" :: (weaveLines ([] : Catalog) ([] : List String)).1,
       (weaveLines ([] : Catalog) ([] : List String)).2) := by
  have h := marker_recognition_rule ([] : Catalog) "int x = 0;" []
  exact ⟨h.1, h.2.2.2.2.2 (by decide)⟩

/-- Claim C10: no blank lines inside injected blocks.  Every tagged line
carries the sentinel, no tagged line is the empty string, and an empty or
whitespace-only snippet line is emitted as whitespace followed by the
sentinel comment alone, exactly as observed in the stubbed samples. -/
theorem injected_lines_always_tagged (s : String) :
    isTagged (tagLine s) = true ∧
    tagLine s ≠ "" ∧
    tagLine "" = sentinel ∧
    tagLine "    " = "      // 通过桩插入" :=
  ⟨isTagged_tagLine s, tagLine_ne_empty s, by decide, by decide⟩

end YAMLWeave
